import Mathlib

/-!
Verification of the chunked document splitter
(`youtube_transcript/utils/file_splitter.py`, class `FileSplitter`).

Strings are modelled as `List Char` (Python `str` is a sequence of code
points).  Byte sizes are the UTF-8 encoded lengths that the Python code
computes with `len(s.encode('utf-8'))`.  The two limits `max_chars` and
`max_bytes` are modelled as `Int` (Python integers, which may be zero or
negative); in the real program `max_bytes = max_size_mb * 1024 * 1024`.

The Python code passes `(section, size)` tuples around where `size` is
always `len(section.encode('utf-8'))` computed at the production site;
the embedding recomputes that byte length (`byteLen`) at each use site,
which is the same value.
-/

namespace FileSplitter

/-- UTF-8 encoded length of a single character, as Python's
`len(ch.encode('utf-8'))` computes it for a Unicode scalar value. -/
def charBytes (c : Char) : Nat :=
  if c.toNat < 0x80 then 1
  else if c.toNat < 0x800 then 2
  else if c.toNat < 0x10000 then 3
  else 4

/-- UTF-8 encoded length of a string, Python's `len(s.encode('utf-8'))`. -/
def byteLen (s : List Char) : Nat := (s.map charBytes).sum

/-- Python's regex class `\s` on `str` (the CPython `Py_UNICODE_ISSPACE`
set): ASCII whitespace plus the Unicode whitespace code points. -/
def pySpace (c : Char) : Bool :=
  c.toNat == 0x20 || (0x9 ≤ c.toNat && c.toNat ≤ 0xd) ||
  (0x1c ≤ c.toNat && c.toNat ≤ 0x1f) || c.toNat == 0x85 || c.toNat == 0xa0 ||
  c.toNat == 0x1680 || (0x2000 ≤ c.toNat && c.toNat ≤ 0x200a) ||
  c.toNat == 0x2028 || c.toNat == 0x2029 || c.toNat == 0x202f ||
  c.toNat == 0x205f || c.toNat == 0x3000

/-!
Zero-width `re.split` patterns.  A zero-width pattern splits the string
before every position at which it matches; a boundary test receives the
already-scanned prefix in reverse (for lookbehind patterns) and the
remaining suffix (for lookahead patterns).
-/

/-- Zero-width match of `(?=\n##\s)` (the Markdown H2 pattern of
`_split_into_sections`): the suffix starts with a newline, two hash
marks and a whitespace character. -/
def mdBound (_before after : List Char) : Bool :=
  match after with
  | c1 :: c2 :: c3 :: c4 :: _ => c1 == '\n' && c2 == '#' && c3 == '#' && pySpace c4
  | _ => false

/-- Zero-width match of `(?=<h2[^>]*>)` with `re.IGNORECASE` (the HTML H2
pattern of `_split_into_sections`): the suffix starts with an opening
angle bracket, the letter h in either case and the digit 2, and a closing
angle bracket occurs somewhere after them. -/
def htmlBound (_before after : List Char) : Bool :=
  match after with
  | c1 :: c2 :: c3 :: rest =>
      c1 == '<' && (c2 == 'h' || c2 == 'H') && c3 == '2' && rest.contains '>'
  | _ => false

/-- Zero-width match of `(?<=\n\n)` (the paragraph pattern of
`_split_oversized_section`): the scanned prefix ends with two newlines. -/
def paraBound (before _after : List Char) : Bool :=
  match before with
  | c1 :: c2 :: _ => c1 == '\n' && c2 == '\n'
  | _ => false

/-- Does the zero-width pattern `B` match `doc` at position `p`? -/
def matchesAt (B : List Char → List Char → Bool) (doc : List Char) (p : Nat) : Bool :=
  B (doc.take p).reverse (doc.drop p)

/-- All positions of `doc` (including the end position) at which the
zero-width pattern matches: the split points of `re.split`. -/
def reSplitCuts (B : List Char → List Char → Bool) (doc : List Char) : List Nat :=
  (List.range (doc.length + 1)).filter (matchesAt B doc)

/-- The pieces of `doc` delimited by the cut positions `cuts`, starting
from position `p`. -/
def piecesFrom (doc : List Char) : Nat → List Nat → List (List Char)
  | p, [] => [doc.drop p]
  | p, c :: cs => (doc.take c).drop p :: piecesFrom doc c cs

/-- `re.split` with a zero-width pattern: cut the string at every
position where the pattern matches.  A match at position 0 yields an
empty first piece, a match at the end an empty last piece, exactly as
Python's `re.split` behaves on zero-width matches. -/
def reSplit (B : List Char → List Char → Bool) (doc : List Char) : List (List Char) :=
  piecesFrom doc 0 (reSplitCuts B doc)

/-- Sentence-ending punctuation of the class `[.!?]`. -/
def isSentEnd (c : Char) : Bool := c == '.' || c == '!' || c == '?'

/-- Scanner for `re.split(r'(?<=[.!?])\s+', section)`: a separator is a
maximal whitespace run whose first character is preceded by sentence
punctuation; the separator is consumed (removed from the output), which
is what `re.split` does with a non-empty match.  `prev` is the previous
character, `inSep` records that the scanner is inside a separator run. -/
def sentAux (prev : Char) (inSep : Bool) (cur : List Char) : List Char → List (List Char)
  | [] => [cur.reverse]
  | c :: rest =>
    if inSep then
      if pySpace c then sentAux c true cur rest
      else sentAux c false (c :: cur) rest
    else if isSentEnd prev && pySpace c then
      cur.reverse :: sentAux c true [] rest
    else sentAux c false (c :: cur) rest

/-- `re.split(r'(?<=[.!?])\s+', s)`.  Note that the matched whitespace is
SEPARATOR text for `re.split` and does not appear in any piece. -/
def sentenceSplit : List Char → List (List Char)
  | [] => [[]]
  | c :: rest => sentAux c false [c] rest

/-- Fixed-width slicing helper with fuel (the fuel is the length of the
list, which suffices whenever the width `k` is at least 1). -/
def sliceAux (k : Nat) : Nat → List Char → List (List Char)
  | _, [] => []
  | 0, _ :: _ => []
  | fuel + 1, c :: cs => ((c :: cs).take k) :: sliceAux k fuel ((c :: cs).drop k)

/-- The slices `section[i:i+k]` for `i in range(0, len(section), k)`.
For `k = 0` and a nonempty section Python's `range` raises `ValueError`;
that case is represented by `[]` here and is unreachable for the
positive limits considered below (for `k < 0` Python's `range` is empty,
which also gives `[]`). -/
def sliceList (k : Nat) (s : List Char) : List (List Char) :=
  if k = 0 then [] else sliceAux k s.length s

/-- `FileSplitter._split_into_sections`: try the Markdown H2 pattern; if
it yields fewer than two pieces try the HTML H2 pattern; otherwise the
whole content is a single section. -/
def splitIntoSections (content : List Char) : List (List Char) :=
  let markdownSections := reSplit mdBound content
  if 1 < markdownSections.length then markdownSections
  else
    let htmlSections := reSplit htmlBound content
    if 1 < htmlSections.length then htmlSections
    else [content]

/-- `FileSplitter._split_oversized_section`: paragraphs first, then
sentences, then fixed-width slices of width
`min(max_chars, max_bytes // 2)` (Python floor division). -/
def splitOversizedSection (maxChars maxBytes : Int) (s : List Char) : List (List Char) :=
  let paragraphs := reSplit paraBound s
  if 1 < paragraphs.length then paragraphs
  else
    let sentences := sentenceSplit s
    if 1 < sentences.length then sentences
    else sliceList (min maxChars (Int.fdiv maxBytes 2)).toNat s

/-- The accumulator of the packing loops of `_create_chunks`: the list of
closed chunks, the currently open chunk (a list of pieces joined on
close), and its running byte and character totals. -/
structure PackState where
  chunks : List (List Char)
  cur : List (List Char)
  curSize : Int
  curLen : Int

/-- The state at the start of each packing loop. -/
def initSt : PackState := ⟨[], [], 0, 0⟩

/-- One step of the packing loops of `_create_chunks`: if adding the
piece would push a running total over its limit, close the current chunk
(emitting it only when nonempty) and open a new chunk holding just this
piece; otherwise append the piece and update the running totals. -/
def packPiece (maxChars maxBytes : Int) (st : PackState) (p : List Char) : PackState :=
  if maxBytes < st.curSize + (byteLen p : Int) ∨ maxChars < st.curLen + (p.length : Int) then
    if st.cur = [] then ⟨st.chunks, [p], (byteLen p : Int), (p.length : Int)⟩
    else ⟨st.chunks ++ [st.cur.flatten], [p], (byteLen p : Int), (p.length : Int)⟩
  else ⟨st.chunks, st.cur ++ [p], st.curSize + (byteLen p : Int), st.curLen + (p.length : Int)⟩

/-- After a packing loop: append the still-open chunk if it is nonempty. -/
def finishChunks (st : PackState) : List (List Char) :=
  if st.cur = [] then st.chunks else st.chunks ++ [st.cur.flatten]

/-- The size test of `_create_chunks`: a section whose byte size exceeds
`max_bytes` or whose character length exceeds `max_chars` must be
decomposed before packing. -/
def oversized (maxChars maxBytes : Int) (s : List Char) : Prop :=
  maxBytes < (byteLen s : Int) ∨ maxChars < (s.length : Int)

instance decOversized (mc mb : Int) (s : List Char) : Decidable (oversized mc mb s) := by
  unfold oversized; exact inferInstance

/-- The first (greedy) packing pass of `_create_chunks`: walk the
sections, decomposing any oversized section and packing the resulting
pieces with the same fit-or-close rule. -/
def createChunksCore (maxChars maxBytes : Int) (sections : List (List Char)) :
    List (List Char) :=
  finishChunks (sections.foldl
    (fun st s =>
      if oversized maxChars maxBytes s then
        (splitOversizedSection maxChars maxBytes s).foldl (packPiece maxChars maxBytes) st
      else packPiece maxChars maxBytes st s)
    initSt)

/-- The re-optimization pass of `_create_chunks`: re-pack the produced
chunks, each treated as one atomic piece. -/
def optimizePass (maxChars maxBytes : Int) (chunks : List (List Char)) : List (List Char) :=
  finishChunks (chunks.foldl (packPiece maxChars maxBytes) initSt)

/-- `FileSplitter._create_chunks`: greedy packing followed by the
re-optimization pass, whose result replaces the greedy one only when it
has strictly fewer chunks. -/
def createChunks (maxChars maxBytes : Int) (sections : List (List Char)) :
    List (List Char) :=
  let chunks := createChunksCore maxChars maxBytes sections
  if 1 < chunks.length then
    let optimizedChunks := optimizePass maxChars maxBytes chunks
    if optimizedChunks.length < chunks.length then optimizedChunks else chunks
  else chunks

/-- The algorithmic core of `FileSplitter.split_file`: sectioning
followed by chunking (the file reading and writing around it is plain
I/O). -/
def splitDocument (maxChars maxBytes : Int) (doc : List Char) : List (List Char) :=
  createChunks maxChars maxBytes (splitIntoSections doc)

/-- The atoms actually handed to the packing loop: each section itself,
or its decomposition when it is oversized. -/
def piecesOf (maxChars maxBytes : Int) (sections : List (List Char)) : List (List Char) :=
  (sections.map (fun s =>
    if oversized maxChars maxBytes s then splitOversizedSection maxChars maxBytes s
    else [s])).flatten

/-!
Basic algebra of `byteLen` and list surgery helpers.
-/

theorem byteLen_append (a b : List Char) : byteLen (a ++ b) = byteLen a + byteLen b := by
  simp [byteLen]

theorem byteLen_flatten (L : List (List Char)) :
    byteLen L.flatten = (L.map byteLen).sum := by
  induction L with
  | nil => simp [byteLen]
  | cons a t ih => simp [byteLen_append, ih]

theorem length_le_of_mem_flatten {s : List Char} {L : List (List Char)}
    (h : s ∈ L) : s.length ≤ L.flatten.length := by
  rw [List.length_flatten]
  exact List.single_le_sum (fun x _ => Nat.zero_le x) _ (List.mem_map_of_mem _ h)

theorem byteLen_le_of_mem_flatten {s : List Char} {L : List (List Char)}
    (h : s ∈ L) : byteLen s ≤ byteLen L.flatten := by
  rw [byteLen_flatten]
  exact List.single_le_sum (fun x _ => Nat.zero_le x) _ (List.mem_map_of_mem _ h)

theorem take_drop_glue (l : List Char) (p c : Nat) (h : p ≤ c) :
    (l.take c).drop p ++ l.drop c = l.drop p := by
  induction l generalizing p c with
  | nil => simp
  | cons x t ih =>
    cases p with
    | zero => simp
    | succ p' =>
      cases c with
      | zero => omega
      | succ c' => simp only [List.take_succ_cons, List.drop_succ_cons]; exact ih p' c' (by omega)

/-!
Losslessness and shape of zero-width `re.split`.
-/

theorem piecesFrom_ne_nil (doc : List Char) (p : Nat) (cuts : List Nat) :
    piecesFrom doc p cuts ≠ [] := by
  cases cuts <;> simp [piecesFrom]

theorem piecesFrom_flatten (doc : List Char) (p : Nat) (cuts : List Nat)
    (h : List.Chain (· ≤ ·) p cuts) :
    (piecesFrom doc p cuts).flatten = doc.drop p := by
  induction cuts generalizing p with
  | nil => simp [piecesFrom]
  | cons c cs ih =>
    rw [List.chain_cons] at h
    simp only [piecesFrom, List.flatten_cons, ih c h.2]
    exact take_drop_glue doc p c h.1

theorem chain_le_of_forall_le_of_pairwise {l : List Nat} {p : Nat}
    (hall : ∀ x ∈ l, p ≤ x) (hp : l.Pairwise (· < ·)) :
    List.Chain (· ≤ ·) p l := by
  induction l generalizing p with
  | nil => exact List.Chain.nil
  | cons c cs ih =>
    rw [List.chain_cons]
    rw [List.pairwise_cons] at hp
    exact ⟨hall c (by simp),
      ih (fun x hx => Nat.le_of_lt (hp.1 x hx)) hp.2⟩

theorem chain_reSplitCuts (B : List Char → List Char → Bool) (doc : List Char) :
    List.Chain (· ≤ ·) 0 (reSplitCuts B doc) := by
  apply chain_le_of_forall_le_of_pairwise (fun x _ => Nat.zero_le x)
  exact (List.pairwise_lt_range _).filter _

theorem reSplit_flatten (B : List Char → List Char → Bool) (doc : List Char) :
    (reSplit B doc).flatten = doc := by
  simpa using piecesFrom_flatten doc 0 (reSplitCuts B doc) (chain_reSplitCuts B doc)

theorem reSplit_ne_nil (B : List Char → List Char → Bool) (doc : List Char) :
    reSplit B doc ≠ [] := piecesFrom_ne_nil doc 0 _

theorem splitIntoSections_flatten (doc : List Char) :
    (splitIntoSections doc).flatten = doc := by
  simp only [splitIntoSections]
  split_ifs
  · exact reSplit_flatten _ _
  · exact reSplit_flatten _ _
  · simp

theorem splitIntoSections_ne_nil (doc : List Char) : splitIntoSections doc ≠ [] := by
  simp only [splitIntoSections]
  split_ifs
  · exact reSplit_ne_nil _ _
  · exact reSplit_ne_nil _ _
  · simp

/-!
The packing loop.  Both packing passes of `_create_chunks` are the same
fold of `packPiece` followed by `finishChunks`; `packAll` names that
composite.
-/

/-- A complete packing pass over a list of pieces. -/
def packAll (maxChars maxBytes : Int) (ps : List (List Char)) : List (List Char) :=
  finishChunks (ps.foldl (packPiece maxChars maxBytes) initSt)

theorem optimizePass_eq_packAll (mc mb : Int) (chunks : List (List Char)) :
    optimizePass mc mb chunks = packAll mc mb chunks := rfl

theorem createChunksCore_eq_packAll (mc mb : Int) (sections : List (List Char)) :
    createChunksCore mc mb sections = packAll mc mb (piecesOf mc mb sections) := by
  unfold createChunksCore packAll
  congr 1
  suffices h : ∀ (secs : List (List Char)) (st : PackState),
      secs.foldl
        (fun st s =>
          if oversized mc mb s then
            (splitOversizedSection mc mb s).foldl (packPiece mc mb) st
          else packPiece mc mb st s) st
      = (piecesOf mc mb secs).foldl (packPiece mc mb) st by
    exact h sections initSt
  intro secs
  induction secs with
  | nil => intro st; simp [piecesOf]
  | cons s rest ih =>
    intro st
    by_cases hs : oversized mc mb s
    · simp only [List.foldl_cons, hs, if_pos, piecesOf, List.map_cons, List.flatten_cons,
        List.foldl_append, ih]
    · simp only [List.foldl_cons, hs, if_neg, piecesOf, List.map_cons, List.flatten_cons,
        List.foldl_append, List.foldl_nil, ih, not_false_iff]

/-- Invariant of the packing fold: the chunks emitted so far, together
with the still-open chunk, form a partition of the processed pieces into
consecutive nonempty groups. -/
def InvPart (ps : List (List Char)) (st : PackState) : Prop :=
  ∃ gs : List (List (List Char)),
    (∀ g ∈ gs, g ≠ []) ∧ st.chunks = gs.map List.flatten ∧
    gs.flatten ++ st.cur = ps ∧ (st.cur = [] → gs = [] ∧ ps = [])

theorem packPiece_invPart (mc mb : Int) {ps : List (List Char)} {st : PackState}
    (h : InvPart ps st) (p : List Char) :
    InvPart (ps ++ [p]) (packPiece mc mb st p) := by
  obtain ⟨gs, hne, hchunks, hglue, hemp⟩ := h
  unfold packPiece
  by_cases hov : mb < st.curSize + (byteLen p : Int) ∨ mc < st.curLen + (p.length : Int)
  · rw [if_pos hov]
    by_cases hcur : st.cur = []
    · rw [if_pos hcur]
      obtain ⟨hgs, hps⟩ := hemp hcur
      exact ⟨[], by simp, by simpa [hgs] using hchunks, by simp [hps], by simp⟩
    · rw [if_neg hcur]
      refine ⟨gs ++ [st.cur], ?_, ?_, ?_, by simp⟩
      · intro g hg
        rcases List.mem_append.1 hg with h1 | h1
        · exact hne g h1
        · simp only [List.mem_singleton] at h1; simpa [h1] using hcur
      · simp [hchunks]
      · simp only [List.flatten_append, List.flatten_cons, List.flatten_nil,
          List.append_nil, List.append_assoc]
        simpa using congrArg (· ++ [p]) hglue
  · rw [if_neg hov]
    refine ⟨gs, hne, hchunks, ?_, by simp⟩
    rw [← List.append_assoc]
    exact congrArg (· ++ [p]) hglue

theorem foldl_invPart (mc mb : Int) (qs : List (List Char)) :
    ∀ {ps : List (List Char)} {st : PackState}, InvPart ps st →
      InvPart (ps ++ qs) (qs.foldl (packPiece mc mb) st) := by
  induction qs with
  | nil => intro ps st h; simpa using h
  | cons q qt ih =>
    intro ps st h
    have h1 := packPiece_invPart mc mb h q
    have h2 := ih h1
    simpa using h2

theorem invPart_init : InvPart [] initSt :=
  ⟨[], by simp, by simp [initSt], by simp [initSt], by simp⟩

theorem packAll_partition (mc mb : Int) (ps : List (List Char)) :
    ∃ gs : List (List (List Char)),
      (∀ g ∈ gs, g ≠ []) ∧ packAll mc mb ps = gs.map List.flatten ∧ gs.flatten = ps := by
  have h := foldl_invPart mc mb ps invPart_init
  rw [List.nil_append] at h
  obtain ⟨gs, hne, hchunks, hglue, hemp⟩ := h
  unfold packAll finishChunks
  by_cases hcur : (ps.foldl (packPiece mc mb) initSt).cur = []
  · rw [if_pos hcur]
    obtain ⟨hgs, hps⟩ := hemp hcur
    exact ⟨[], by simp, by simpa [hgs] using hchunks, by simp [hps]⟩
  · rw [if_neg hcur]
    refine ⟨gs ++ [(ps.foldl (packPiece mc mb) initSt).cur], ?_, by simp [hchunks], ?_⟩
    · intro g hg
      rcases List.mem_append.1 hg with h1 | h1
      · exact hne g h1
      · simp only [List.mem_singleton] at h1; simpa [h1] using hcur
    · simpa using hglue

theorem flatten_map_flatten {α : Type} (L : List (List (List α))) :
    (L.map List.flatten).flatten = L.flatten.flatten := by
  induction L with
  | nil => simp
  | cons a t ih => simp [ih]

theorem packAll_flatten (mc mb : Int) (ps : List (List Char)) :
    (packAll mc mb ps).flatten = ps.flatten := by
  obtain ⟨gs, _, heq, hglue⟩ := packAll_partition mc mb ps
  rw [heq, flatten_map_flatten, hglue]

theorem packAll_ne_nil (mc mb : Int) {ps : List (List Char)} (h : ps ≠ []) :
    packAll mc mb ps ≠ [] := by
  obtain ⟨gs, _, heq, hglue⟩ := packAll_partition mc mb ps
  rw [heq]
  intro hcon
  rw [List.map_eq_nil_iff] at hcon
  rw [hcon] at hglue
  exact h hglue.symm

/-!
Packing a list of pieces that fits the limits in total keeps everything
in one chunk.
-/

theorem packFold_fit (mc mb : Int) :
    ∀ (rest pre : List (List Char)),
      ((byteLen (pre ++ rest).flatten : Int) ≤ mb) →
      (((pre ++ rest).flatten.length : Int) ≤ mc) →
      rest.foldl (packPiece mc mb)
        ⟨[], pre, (byteLen pre.flatten : Int), (pre.flatten.length : Int)⟩
      = ⟨[], pre ++ rest, (byteLen (pre ++ rest).flatten : Int),
          ((pre ++ rest).flatten.length : Int)⟩ := by
  intro rest
  induction rest with
  | nil => intro pre _ _; simp
  | cons p rt ih =>
    intro pre hb hl
    have hsplit : (pre ++ p :: rt).flatten
        = pre.flatten ++ p ++ (rt.map id).flatten := by
      simp [List.flatten_append]
    have hbp : (byteLen (pre.flatten ++ p) : Int) ≤ mb := by
      have : byteLen (pre.flatten ++ p) ≤ byteLen (pre ++ p :: rt).flatten := by
        rw [hsplit, byteLen_append, byteLen_append, byteLen_append]
        omega
      omega
    have hlp : ((pre.flatten ++ p).length : Int) ≤ mc := by
      have : (pre.flatten ++ p).length ≤ (pre ++ p :: rt).flatten.length := by
        rw [hsplit]
        simp only [List.length_append]
        omega
      omega
    have hnov : ¬(mb < (byteLen pre.flatten : Int) + (byteLen p : Int) ∨
        mc < (pre.flatten.length : Int) + (p.length : Int)) := by
      rw [byteLen_append] at hbp
      rw [List.length_append] at hlp
      push_neg
      constructor <;> push_cast at hbp hlp ⊢ <;> omega
    have hstep : packPiece mc mb
        ⟨[], pre, (byteLen pre.flatten : Int), (pre.flatten.length : Int)⟩ p
        = ⟨[], pre ++ [p], (byteLen (pre ++ [p]).flatten : Int),
            ((pre ++ [p]).flatten.length : Int)⟩ := by
      unfold packPiece
      rw [if_neg hnov]
      simp [byteLen_append]
    rw [List.foldl_cons, hstep]
    have hre : (pre ++ [p]) ++ rt = pre ++ p :: rt := by simp
    have := ih (pre ++ [p]) (by rw [hre]; exact hb) (by rw [hre]; exact hl)
    rw [hre] at this
    exact this

theorem packAll_fit (mc mb : Int) (ps : List (List Char)) (hne : ps ≠ [])
    (hb : (byteLen ps.flatten : Int) ≤ mb) (hl : ((ps.flatten.length : Nat) : Int) ≤ mc) :
    packAll mc mb ps = [ps.flatten] := by
  unfold packAll
  have h0 : initSt
      = ⟨[], ([] : List (List Char)), (byteLen ([] : List (List Char)).flatten : Int),
          ((([] : List (List Char)).flatten.length : Nat) : Int)⟩ := by
    simp [initSt, byteLen]
  rw [h0]
  rw [packFold_fit mc mb ps [] (by simpa using hb) (by simpa using hl)]
  unfold finishChunks
  rw [if_neg (by simpa using hne)]
  simp

/-!
Chunk size discipline: every chunk a packing pass emits either fits both
limits or is one single piece of its input list.
-/

/-- A chunk that satisfies both limits. -/
def okChunk (maxChars maxBytes : Int) (c : List Char) : Prop :=
  (c.length : Int) ≤ maxChars ∧ (byteLen c : Int) ≤ maxBytes

/-- Invariant of the packing fold for the size discipline: every emitted
chunk fits or is a single input piece, and the open chunk's running
totals are the true totals of its content. -/
def InvSize (mc mb : Int) (P : List (List Char)) (st : PackState) : Prop :=
  (∀ c ∈ st.chunks, okChunk mc mb c ∨ c ∈ P) ∧
  (okChunk mc mb st.cur.flatten ∨ ∃ p ∈ P, st.cur = [p]) ∧
  st.curSize = (byteLen st.cur.flatten : Int) ∧
  st.curLen = (st.cur.flatten.length : Int)

theorem packPiece_invSize (mc mb : Int) {P : List (List Char)} {st : PackState}
    (h : InvSize mc mb P st) {p : List Char} (hp : p ∈ P) :
    InvSize mc mb P (packPiece mc mb st p) := by
  obtain ⟨hchunks, hcur, hsz, hln⟩ := h
  unfold packPiece
  by_cases hov : mb < st.curSize + (byteLen p : Int) ∨ mc < st.curLen + (p.length : Int)
  · rw [if_pos hov]
    by_cases hemp : st.cur = []
    · rw [if_pos hemp]
      exact ⟨hchunks, Or.inr ⟨p, hp, rfl⟩, by simp, by simp⟩
    · rw [if_neg hemp]
      refine ⟨?_, Or.inr ⟨p, hp, rfl⟩, by simp, by simp⟩
      intro c hc
      rcases List.mem_append.1 hc with h1 | h1
      · exact hchunks c h1
      · simp only [List.mem_singleton] at h1
        subst h1
        rcases hcur with h2 | ⟨q, hq, h2⟩
        · exact Or.inl h2
        · rw [h2]; simpa using Or.inr hq
  · rw [if_neg hov]
    push_neg at hov
    refine ⟨hchunks, Or.inl ?_, by simp [byteLen_append, hsz], by simp [hln]⟩
    constructor
    · rw [List.flatten_append, List.length_append]
      rw [hln] at hov
      push_cast
      simpa using hov.2
    · rw [List.flatten_append, byteLen_append]
      rw [hsz] at hov
      push_cast
      simpa using hov.1

theorem foldl_invSize (mc mb : Int) {P : List (List Char)} (qs : List (List Char))
    (hqs : ∀ q ∈ qs, q ∈ P) :
    ∀ {st : PackState}, InvSize mc mb P st →
      InvSize mc mb P (qs.foldl (packPiece mc mb) st) := by
  induction qs with
  | nil => intro st h; exact h
  | cons q qt ih =>
    intro st h
    exact ih (fun x hx => hqs x (by simp [hx]))
      (packPiece_invSize mc mb h (hqs q (by simp)))

theorem invSize_init (mc mb : Int) (P : List (List Char))
    (hmc : 0 ≤ mc) (hmb : 0 ≤ mb) : InvSize mc mb P initSt := by
  refine ⟨by simp [initSt], Or.inl ?_, by simp [initSt, byteLen], by simp [initSt]⟩
  simpa [initSt, okChunk, byteLen] using ⟨hmc, hmb⟩

theorem packAll_sizes (mc mb : Int) (P : List (List Char))
    (hmc : 0 ≤ mc) (hmb : 0 ≤ mb) :
    ∀ c ∈ packAll mc mb P, okChunk mc mb c ∨ c ∈ P := by
  have h := foldl_invSize mc mb P (fun q hq => hq) (invSize_init mc mb P hmc hmb)
  obtain ⟨hchunks, hcur, _, _⟩ := h
  intro c hc
  unfold packAll finishChunks at hc
  by_cases hemp : (P.foldl (packPiece mc mb) initSt).cur = []
  · rw [if_pos hemp] at hc
    exact hchunks c hc
  · rw [if_neg hemp] at hc
    rcases List.mem_append.1 hc with h1 | h1
    · exact hchunks c h1
    · simp only [List.mem_singleton] at h1
      subst h1
      rcases hcur with h2 | ⟨q, hq, h2⟩
      · exact Or.inl h2
      · rw [h2]; simpa using Or.inr hq

/-!
Fixed-width slices: each slice is at most `k` characters long, and
slicing a nonempty list with positive width yields a nonempty result.
-/

theorem sliceAux_mem_length (k : Nat) :
    ∀ (fuel : Nat) (s : List Char), ∀ p ∈ sliceAux k fuel s, p.length ≤ k := by
  intro fuel
  induction fuel with
  | zero => intro s p hp; cases s <;> simp [sliceAux] at hp
  | succ f ih =>
    intro s p hp
    cases s with
    | nil => simp [sliceAux] at hp
    | cons c cs =>
      simp only [sliceAux, List.mem_cons] at hp
      rcases hp with h1 | h1
      · subst h1; exact (c :: cs).length_take_le k
      · exact ih _ p h1

theorem sliceList_mem_length {k : Nat} {s p : List Char} (hp : p ∈ sliceList k s) :
    p.length ≤ k ∧ k ≠ 0 := by
  unfold sliceList at hp
  by_cases hk : k = 0
  · rw [if_pos hk] at hp; simp at hp
  · rw [if_neg hk] at hp
    exact ⟨sliceAux_mem_length k s.length s p hp, hk⟩

theorem sliceList_ne_nil {k : Nat} {s : List Char} (hk : k ≠ 0) (hs : s ≠ []) :
    sliceList k s ≠ [] := by
  unfold sliceList
  rw [if_neg hk]
  cases s with
  | nil => exact absurd rfl hs
  | cons c cs => simp [sliceAux]

theorem sentenceSplit_ne_nil (s : List Char) : sentenceSplit s ≠ [] := by
  cases s with
  | nil => simp [sentenceSplit]
  | cons c rest =>
    suffices h : ∀ (r : List Char) (prev : Char) (inSep : Bool) (cur : List Char),
        sentAux prev inSep cur r ≠ [] by
      simpa [sentenceSplit] using h rest c false [c]
    intro r
    induction r with
    | nil => intro prev inSep cur; simp [sentAux]
    | cons x t ih =>
      intro prev inSep cur
      simp only [sentAux]
      split_ifs <;> simp [ih]

theorem splitOversizedSection_ne_nil {mc mb : Int} {s : List Char}
    (hmc : 1 ≤ mc) (hmb : 2 ≤ mb) (hs : s ≠ []) :
    splitOversizedSection mc mb s ≠ [] := by
  simp only [splitOversizedSection]
  split_ifs with h1 h2
  · exact reSplit_ne_nil _ _
  · exact sentenceSplit_ne_nil s
  · apply sliceList_ne_nil _ hs
    have hfd : 1 ≤ Int.fdiv mb 2 := by
      rw [Int.fdiv_eq_ediv _ (by norm_num : (0 : Int) ≤ 2)]
      omega
    have hmin : 1 ≤ min mc (Int.fdiv mb 2) := le_min hmc hfd
    omega

/-!
Specification-side sectioning.  The specification describes sectioning
operationally: scan the document and split immediately before each
occurrence of a heading marker, first the Markdown marker, then (if
fewer than two sections result) the HTML marker, case-insensitively,
and otherwise keep the whole document as one section.  The scanner below
follows that wording; the claim theorem identifies it with the
declarative `re.split` embedding used by `splitIntoSections`.
-/

/-- Markdown H2 heading marker at the current scan position, as the
specification words it: a line break followed by two hash marks and a
whitespace character. -/
def mdMarker (after : List Char) : Bool :=
  match after with
  | a :: b :: c :: d :: _ => pySpace d && c == '#' && b == '#' && a == '\n'
  | _ => false

/-- HTML H2 heading tag at the current scan position, case-insensitively:
an opening angle bracket, the letter h in either case, the digit 2 and,
later, a closing angle bracket. -/
def htmlMarker (after : List Char) : Bool :=
  match after with
  | a :: b :: c :: rest =>
      (b == 'H' || b == 'h') && c == '2' && a == '<' && rest.any (· == '>')
  | _ => false

/-- Left-to-right scanner that splits before every position at which the
boundary test holds.  `revBefore` is the scanned prefix in reverse and
`cur` the current section in reverse. -/
def scanSplitAux (B : List Char → List Char → Bool) (revBefore cur : List Char) :
    List Char → List (List Char)
  | [] => if B revBefore [] then [cur.reverse, []] else [cur.reverse]
  | c :: rest =>
    if B revBefore (c :: rest) then cur.reverse :: scanSplitAux B (c :: revBefore) [c] rest
    else scanSplitAux B (c :: revBefore) (c :: cur) rest

/-- Scanning split of a whole document. -/
def scanSplit (B : List Char → List Char → Bool) (doc : List Char) : List (List Char) :=
  scanSplitAux B [] [] doc

/-- Sectioning as the specification describes it: split before each
Markdown heading marker; with fewer than two sections retry with the
HTML heading marker; with still fewer than two sections the whole
document is one section. -/
def sectionsSpec (doc : List Char) : List (List Char) :=
  let md := scanSplit (fun _ after => mdMarker after) doc
  if md.length < 2 then
    let ht := scanSplit (fun _ after => htmlMarker after) doc
    if ht.length < 2 then [doc] else ht
  else md

/-- The cut positions the scanner encounters from a given intermediate
state (absolute positions in the full document). -/
def cutsFrom (B : List Char → List Char → Bool) (revBefore : List Char) :
    List Char → List Nat
  | [] => if B revBefore [] then [revBefore.length] else []
  | c :: rest =>
    (if B revBefore (c :: rest) then [revBefore.length] else []) ++ cutsFrom B (c :: revBefore) rest

theorem take_len_append {α : Type} (l₁ l₂ : List α) : (l₁ ++ l₂).take l₁.length = l₁ :=
  List.take_left l₁ l₂

theorem drop_len_append {α : Type} (l₁ l₂ : List α) : (l₁ ++ l₂).drop l₁.length = l₂ :=
  List.drop_left l₁ l₂

theorem cutsFrom_eq_filter (B : List Char → List Char → Bool) :
    ∀ (rest revBefore : List Char),
      cutsFrom B revBefore rest
        = (List.range' revBefore.length (rest.length + 1)).filter
            (matchesAt B (revBefore.reverse ++ rest)) := by
  intro rest
  induction rest with
  | nil =>
    intro rb
    have h1 : List.range' rb.length 1 = [rb.length] := List.range'_one
    have h2 : matchesAt B rb.reverse rb.length = B rb [] := by
      unfold matchesAt
      have ht : rb.reverse.take rb.length = rb.reverse := by
        rw [← List.length_reverse rb]; exact List.take_length rb.reverse
      have hd : rb.reverse.drop rb.length = [] := by
        rw [← List.length_reverse rb]; exact List.drop_length rb.reverse
      rw [ht, hd, List.reverse_reverse]
    by_cases h : B rb [] <;>
      simp [cutsFrom, h, h1, h2]
  | cons c rest ih =>
    intro rb
    have hdoc : (c :: rb).reverse ++ rest = rb.reverse ++ (c :: rest) := by
      simp
    have hm : matchesAt B (rb.reverse ++ (c :: rest)) rb.length = B rb (c :: rest) := by
      unfold matchesAt
      have ht : (rb.reverse ++ (c :: rest)).take rb.length = rb.reverse := by
        rw [← List.length_reverse rb]; exact take_len_append rb.reverse (c :: rest)
      have hd : (rb.reverse ++ (c :: rest)).drop rb.length = c :: rest := by
        rw [← List.length_reverse rb]; exact drop_len_append rb.reverse (c :: rest)
      rw [ht, hd, List.reverse_reverse]
    have hr : List.range' rb.length (rest.length + 1 + 1)
        = rb.length :: List.range' (rb.length + 1) (rest.length + 1) := List.range'_succ _ _ _
    simp only [cutsFrom, List.length_cons, hr, List.filter_cons, hm]
    have ih' := ih (c :: rb)
    rw [hdoc] at ih'
    simp only [List.length_cons] at ih'
    rw [ih']
    split_ifs <;> simp

theorem cutsFrom_ge (B : List Char → List Char → Bool) :
    ∀ (rest revBefore : List Char) (q : Nat), q ∈ cutsFrom B revBefore rest →
      revBefore.length ≤ q := by
  intro rest
  induction rest with
  | nil =>
    intro rb q hq
    simp only [cutsFrom] at hq
    split_ifs at hq <;> simp_all
  | cons c t ih =>
    intro rb q hq
    simp only [cutsFrom] at hq
    rcases List.mem_append.1 hq with h1 | h1
    · split_ifs at h1 <;> simp_all
    · have := ih (c :: rb) q h1
      simp only [List.length_cons] at this
      omega

theorem scanSplitAux_eq (B : List Char → List Char → Bool) :
    ∀ (rest revBefore cur : List Char),
      scanSplitAux B revBefore cur rest
        = match cutsFrom B revBefore rest with
          | [] => [cur.reverse ++ rest]
          | q :: qs =>
              (cur.reverse ++ rest.take (q - revBefore.length))
                :: piecesFrom (revBefore.reverse ++ rest) q qs := by
  intro rest
  induction rest with
  | nil =>
    intro rb cur
    simp only [scanSplitAux, cutsFrom]
    split_ifs with h
    · have hd : (rb.reverse).drop rb.length = [] := by
        rw [← List.length_reverse rb]; exact List.drop_length rb.reverse
      simp [piecesFrom, hd]
    · simp
  | cons c rest ih =>
    intro rb cur
    have hdoc : (c :: rb).reverse ++ rest = rb.reverse ++ (c :: rest) := by simp
    simp only [scanSplitAux]
    split_ifs with h
    · simp only [cutsFrom, if_pos h, List.singleton_append, Nat.sub_self, List.take_zero,
        List.append_nil]
      congr 1
      rw [ih (c :: rb) [c]]
      cases hcf : cutsFrom B (c :: rb) rest with
      | nil =>
        have hd : (rb.reverse ++ (c :: rest)).drop rb.length = c :: rest := by
          rw [← List.length_reverse rb]; exact drop_len_append rb.reverse (c :: rest)
        simp [piecesFrom, hd]
      | cons q qs =>
        have hge : rb.length + 1 ≤ q := by
          have := cutsFrom_ge B rest (c :: rb) q (by rw [hcf]; simp)
          simpa using this
        have htk : ((rb.reverse ++ (c :: rest)).take q).drop rb.length
            = c :: rest.take (q - (rb.length + 1)) := by
          rw [List.take_append_eq_append_take]
          have h1 : rb.reverse.take q = rb.reverse :=
            List.take_of_length_le (by rw [List.length_reverse]; omega)
          rw [h1, List.length_reverse]
          have h2 : q - rb.length = (q - (rb.length + 1)) + 1 := by omega
          rw [List.drop_append_eq_append_drop, List.length_reverse]
          have h3 : rb.reverse.drop rb.length = [] := by
            rw [← List.length_reverse rb]; exact List.drop_length rb.reverse
          rw [h3, Nat.sub_self, List.drop_zero, h2, List.take_succ_cons]
          simp
        simp [piecesFrom, hdoc, htk]
    · simp only [cutsFrom, if_neg h, List.nil_append]
      rw [ih (c :: rb) (c :: cur)]
      cases hcf : cutsFrom B (c :: rb) rest with
      | nil =>
        simp [List.reverse_cons]
      | cons q qs =>
        have hge : rb.length + 1 ≤ q := by
          have := cutsFrom_ge B rest (c :: rb) q (by rw [hcf]; simp)
          simpa using this
        have h2 : q - rb.length = (q - (rb.length + 1)) + 1 := by omega
        simp only [hdoc, List.length_cons, List.reverse_cons, List.append_assoc,
          List.singleton_append, h2, List.take_succ_cons]

theorem scanSplit_eq_reSplit (B : List Char → List Char → Bool) (doc : List Char) :
    scanSplit B doc = reSplit B doc := by
  unfold scanSplit reSplit reSplitCuts
  rw [scanSplitAux_eq B doc [] []]
  have hcf : cutsFrom B [] doc
      = (List.range (doc.length + 1)).filter (matchesAt B doc) := by
    have := cutsFrom_eq_filter B doc []
    simpa [List.range_eq_range'] using this
  rw [← hcf]
  cases hc : cutsFrom B [] doc with
  | nil => simp [piecesFrom]
  | cons q qs => simp [piecesFrom]

theorem mdMarker_eq_mdBound (b a : List Char) : mdMarker a = mdBound b a := by
  rcases a with _ | ⟨c1, _ | ⟨c2, _ | ⟨c3, _ | ⟨c4, t⟩⟩⟩⟩
  · rfl
  · rfl
  · rfl
  · rfl
  · simp [mdMarker, mdBound, Bool.and_comm, Bool.and_left_comm, Bool.and_assoc]

theorem htmlMarker_eq_htmlBound (b a : List Char) : htmlMarker a = htmlBound b a := by
  rcases a with _ | ⟨c1, _ | ⟨c2, _ | ⟨c3, t⟩⟩⟩
  · rfl
  · rfl
  · rfl
  · have hc : (t.any (· == '>')) = (decide ('>' ∈ t)) := by
      rw [Bool.eq_iff_iff]
      simp [List.any_eq_true, beq_iff_eq]
    have hc2 : (t.contains '>') = (decide ('>' ∈ t)) := by
      rw [Bool.eq_iff_iff]
      simp [List.contains_iff_exists_mem_beq, beq_iff_eq]
    simp only [htmlMarker, htmlBound, Bool.or_comm,
      Bool.and_comm, Bool.and_left_comm, Bool.and_assoc, hc, hc2]

/-!
Pulling a partition back along a map: a partition of `l.map f` into
consecutive groups comes from a partition of `l`.
-/

theorem partition_pullback {α β : Type} (f : α → β) :
    ∀ (hs : List (List β)) (l : List α), hs.flatten = l.map f →
      ∃ ks : List (List α), ks.flatten = l ∧ hs = ks.map (List.map f) := by
  intro hs
  induction hs with
  | nil =>
    intro l hl
    have : l = [] := by
      have := hl.symm
      simpa [List.map_eq_nil_iff] using this
    exact ⟨[], by simp [this], by simp⟩
  | cons h t ih =>
    intro l hl
    simp only [List.flatten_cons] at hl
    have hlen : h.length ≤ l.length := by
      have := congrArg List.length hl
      simp only [List.length_append, List.length_map] at this
      omega
    have h1 : (List.map f l).take h.length = h := by
      rw [← hl]; exact take_len_append h t.flatten
    have h2 : (List.map f l).drop h.length = t.flatten := by
      rw [← hl]; exact drop_len_append h t.flatten
    have hh : h = (l.take h.length).map f := by
      rw [List.map_take]; exact h1.symm
    have ht : t.flatten = (l.drop h.length).map f := by
      rw [List.map_drop]; exact h2.symm
    obtain ⟨ks, hks1, hks2⟩ := ih (l.drop h.length) ht
    refine ⟨l.take h.length :: ks, ?_, ?_⟩
    · rw [List.flatten_cons, hks1]
      exact List.take_append_drop _ l
    · rw [List.map_cons, ← hh, ← hks2]

/-!
Case analysis on the re-optimization step of `_create_chunks`.
-/

theorem createChunks_cases (mc mb : Int) (secs : List (List Char)) :
    createChunks mc mb secs = createChunksCore mc mb secs ∨
      (createChunks mc mb secs = optimizePass mc mb (createChunksCore mc mb secs) ∧
        (optimizePass mc mb (createChunksCore mc mb secs)).length
          < (createChunksCore mc mb secs).length) := by
  simp only [createChunks]
  split_ifs with h1 h2
  · exact Or.inr ⟨rfl, h2⟩
  · exact Or.inl rfl
  · exact Or.inl rfl

/-!
Splitting content that already fits both limits returns it unchanged as
a single chunk.
-/

theorem flatten_map_singleton {α : Type} (l : List α) :
    (l.map (fun a => [a])).flatten = l := by
  induction l with
  | nil => rfl
  | cons a t ih => simp [ih]

theorem splitDocument_fits (mc mb : Int) (C : List Char)
    (hl : (C.length : Int) ≤ mc) (hb : (byteLen C : Int) ≤ mb) :
    splitDocument mc mb C = [C] := by
  have hsec := splitIntoSections_flatten C
  have hne := splitIntoSections_ne_nil C
  have hnov : ∀ s ∈ splitIntoSections C, ¬ oversized mc mb s := by
    intro s hs
    have h1 : s.length ≤ C.length := by
      rw [← hsec]; exact length_le_of_mem_flatten hs
    have h2 : byteLen s ≤ byteLen C := by
      rw [← hsec]; exact byteLen_le_of_mem_flatten hs
    unfold oversized
    push_neg
    constructor
    · have : (byteLen s : Int) ≤ (byteLen C : Int) := by exact_mod_cast h2
      omega
    · have : ((s.length : Nat) : Int) ≤ ((C.length : Nat) : Int) := by exact_mod_cast h1
      omega
  have hpieces : piecesOf mc mb (splitIntoSections C) = splitIntoSections C := by
    unfold piecesOf
    rw [List.map_congr_left (fun s hs => if_neg (hnov s hs))]
    exact flatten_map_singleton _
  have hcore : createChunksCore mc mb (splitIntoSections C) = [C] := by
    rw [createChunksCore_eq_packAll, hpieces]
    have hfit := packAll_fit mc mb _ hne (by rw [hsec]; exact hb) (by rw [hsec]; exact hl)
    rw [hsec] at hfit
    exact hfit
  unfold splitDocument createChunks
  rw [hcore]
  simp

/-!
The claims.
-/

/-- C1: the claim states that concatenating all chunk texts returned by
the splitter reproduces the input document exactly for every document
and positive limits.  The code violates this: the sentence fallback of
`_split_oversized_section` uses `re.split` with a pattern whose `\s+`
part is a consumed separator, so the whitespace between sentences is
dropped.  On the document consisting of the four characters a, full
stop, space, b with `max_chars = 3` the splitter returns one chunk of
three characters and concatenation does not reproduce the document. -/
theorem C1_roundtrip_fails :
    splitDocument 3 2097152 ("a. b".toList) = ["a.b".toList] ∧
    (splitDocument 3 2097152 ("a. b".toList)).flatten ≠ "a. b".toList := by
  decide

/-- C2: the claim states that the pieces produced by
`_split_oversized_section` always concatenate back to the section.  The
paragraph and slice strategies are lossless, but the sentence strategy
consumes the whitespace separator: on the oversized section a, full
stop, space, b (with `max_chars = 3`) it returns the two pieces a-full
stop and b, whose concatenation misses the space. -/
theorem C2_decomposition_lossy :
    oversized 3 2097152 ("a. b".toList) ∧
    splitOversizedSection 3 2097152 ("a. b".toList) = ["a.".toList, "b".toList] ∧
    (splitOversizedSection 3 2097152 ("a. b".toList)).flatten ≠ "a. b".toList := by
  decide

/-- C3 counterexample: the claim states every non-forced-slice chunk
satisfies both limits.  On the document a, full stop, space, bcdef with
`max_chars = 3` the oversized section is decomposed by the SENTENCE
strategy (not the slice fallback, whose result would differ), and the
five-character sentence atom becomes a chunk exceeding `max_chars`. -/
theorem C3_counterexample :
    splitDocument 3 2097152 ("a. bcdef".toList) = ["a.".toList, "bcdef".toList] ∧
    splitOversizedSection 3 2097152 ("a. bcdef".toList)
      = sentenceSplit ("a. bcdef".toList) ∧
    sliceList (min 3 (Int.fdiv 2097152 2)).toNat ("a. bcdef".toList)
      ≠ splitOversizedSection 3 2097152 ("a. bcdef".toList) ∧
    ¬ ((("bcdef".toList).length : Int) ≤ 3) := by
  decide

/-- C3 (amended): for positive limits, every chunk the splitter returns
either satisfies both limits or is one single atom of the decomposition
(an oversized paragraph, sentence piece, or forced slice); and every
piece produced by the forced fixed-width slice fallback has character
count at most `max_chars` (only its byte size may exceed `max_bytes`). -/
theorem C3_chunk_limits (mc mb : Int) (doc : List Char) (hmc : 0 < mc) (hmb : 0 < mb) :
    (∀ c ∈ splitDocument mc mb doc,
        ((c.length : Int) ≤ mc ∧ (byteLen c : Int) ≤ mb) ∨
          c ∈ piecesOf mc mb (splitIntoSections doc)) ∧
    (∀ s p : List Char,
        p ∈ sliceList (min mc (Int.fdiv mb 2)).toNat s → (p.length : Int) ≤ mc) := by
  constructor
  · have h1 : ∀ c ∈ createChunksCore mc mb (splitIntoSections doc),
        okChunk mc mb c ∨ c ∈ piecesOf mc mb (splitIntoSections doc) := by
      rw [createChunksCore_eq_packAll]
      exact packAll_sizes mc mb _ (le_of_lt hmc) (le_of_lt hmb)
    intro c hc
    unfold splitDocument at hc
    rcases createChunks_cases mc mb (splitIntoSections doc) with h | ⟨h, _⟩
    · rw [h] at hc
      rcases h1 c hc with hok | hmem
      · exact Or.inl hok
      · exact Or.inr hmem
    · rw [h, optimizePass_eq_packAll] at hc
      rcases packAll_sizes mc mb (createChunksCore mc mb (splitIntoSections doc))
          (le_of_lt hmc) (le_of_lt hmb) c hc with hok | hmem
      · exact Or.inl hok
      · rcases h1 c hmem with hok | hmem2
        · exact Or.inl hok
        · exact Or.inr hmem2
  · intro s p hp
    obtain ⟨hlen, hk⟩ := sliceList_mem_length hp
    have h1 : min mc (Int.fdiv mb 2) ≤ mc := min_le_left _ _
    omega

/-- C3 witness: the amended limit theorem applied at concrete input. -/
theorem C3_chunk_limits_witness :
    (∀ c ∈ splitDocument 3 2097152 ("ab".toList),
        ((c.length : Int) ≤ 3 ∧ (byteLen c : Int) ≤ 2097152) ∨
          c ∈ piecesOf 3 2097152 (splitIntoSections ("ab".toList))) ∧
    (∀ s p : List Char,
        p ∈ sliceList (min 3 (Int.fdiv 2097152 2)).toNat s → (p.length : Int) ≤ 3) :=
  C3_chunk_limits 3 2097152 ("ab".toList) (by norm_num) (by norm_num)

/-- C4: the claim states that a zero or negative limit makes the
splitter fail fast with a configuration error before any scanning.  The
code performs no validation at all: `__init__` stores the limits
unchecked and `split_file` proceeds to section and chunk the document.
With `max_chars = 0` (and the default 200 MB byte limit) the splitter
still scans, decomposes and returns chunks normally instead of raising
a configuration error. -/
theorem C4_no_validation :
    ¬ (0 < (0 : Int)) ∧
    splitDocument 0 209715200 ("a\n\nb".toList) = ["a\n\n".toList, "b".toList] := by
  decide

/-- C5 counterexample: the claim states no returned chunk has zero
length unless the document is empty.  On the nonempty document
abcdefgh followed by two newlines with `max_chars = 3`, the paragraph
split produces a trailing empty piece after an oversized atom, and the
splitter returns that empty piece as a zero-length chunk. -/
theorem C5_counterexample :
    ("abcdefgh\n\n".toList) ≠ [] ∧
    splitDocument 3 2097152 ("abcdefgh\n\n".toList)
      = ["abcdefgh\n\n".toList, ([] : List Char)] ∧
    ([] : List Char) ∈ splitDocument 3 2097152 ("abcdefgh\n\n".toList) := by
  decide

/-- C5 (amended): for a non-empty document and positive limits (the byte
limit is at least 2, which holds for every positive megabyte count) the
splitter returns a non-empty list of chunks; a returned chunk may
however have zero length even for a non-empty document. -/
theorem C5_nonempty_result (mc mb : Int) (doc : List Char)
    (hmc : 0 < mc) (hmb : 2 ≤ mb) (_hdoc : doc ≠ []) :
    splitDocument mc mb doc ≠ [] := by
  have hpieces : piecesOf mc mb (splitIntoSections doc) ≠ [] := by
    obtain ⟨s, rest, hsr⟩ : ∃ s rest, splitIntoSections doc = s :: rest := by
      cases h : splitIntoSections doc with
      | nil => exact absurd h (splitIntoSections_ne_nil doc)
      | cons s r => exact ⟨s, r, rfl⟩
    rw [hsr]
    unfold piecesOf
    simp only [List.map_cons, List.flatten_cons]
    have h1 : (if oversized mc mb s then splitOversizedSection mc mb s else [s]) ≠ [] := by
      split_ifs with hov
      · apply splitOversizedSection_ne_nil (by omega) hmb
        intro hnil
        rw [hnil] at hov
        unfold oversized at hov
        simp [byteLen] at hov
        omega
      · simp
    intro hcon
    rw [List.append_eq_nil] at hcon
    exact h1 hcon.1
  have hcore : createChunksCore mc mb (splitIntoSections doc) ≠ [] := by
    rw [createChunksCore_eq_packAll]
    exact packAll_ne_nil mc mb hpieces
  rcases createChunks_cases mc mb (splitIntoSections doc) with h | ⟨h, _⟩
  · unfold splitDocument
    rw [h]
    exact hcore
  · unfold splitDocument
    rw [h, optimizePass_eq_packAll]
    exact packAll_ne_nil mc mb hcore

/-- C5 witness: the amended non-emptiness theorem at concrete input. -/
theorem C5_nonempty_result_witness : splitDocument 3 2097152 ("ab".toList) ≠ [] :=
  C5_nonempty_result 3 2097152 ("ab".toList) (by norm_num) (by norm_num) (by decide)

/-- C6: sectioning splits immediately before each occurrence of the
Markdown level-2 heading marker; if that yields fewer than two sections
it retries with the HTML level-2 heading tag, case-insensitively; if
that also yields fewer than two sections the whole document is one
section.  The scanner `sectionsSpec` follows this specification wording
and coincides with the implementation `splitIntoSections`. -/
theorem C6_sectioning (doc : List Char) : splitIntoSections doc = sectionsSpec doc := by
  have hmd : (fun (_ after : List Char) => mdMarker after) = mdBound := by
    funext b a
    exact mdMarker_eq_mdBound b a
  have hht : (fun (_ after : List Char) => htmlMarker after) = htmlBound := by
    funext b a
    exact htmlMarker_eq_htmlBound b a
  simp only [sectionsSpec, splitIntoSections, scanSplit_eq_reSplit, hmd, hht]
  split_ifs <;> first | rfl | omega

/-- C7: when the document has at least two Markdown-delimited sections
and every section fits both limits, the chunks are concatenations of
consecutive whole sections: no chunk boundary falls inside a section. -/
theorem C7_section_preservation (mc mb : Int) (doc : List Char)
    (hmd : 1 < (reSplit mdBound doc).length)
    (hfit : ∀ s ∈ reSplit mdBound doc, (s.length : Int) ≤ mc ∧ (byteLen s : Int) ≤ mb) :
    ∃ gs : List (List (List Char)),
      (∀ g ∈ gs, g ≠ []) ∧ gs.flatten = reSplit mdBound doc ∧
      splitDocument mc mb doc = gs.map List.flatten := by
  have hsecs : splitIntoSections doc = reSplit mdBound doc := by
    simp only [splitIntoSections]
    rw [if_pos hmd]
  have hnov : ∀ s ∈ splitIntoSections doc, ¬ oversized mc mb s := by
    rw [hsecs]
    intro s hs
    obtain ⟨h1, h2⟩ := hfit s hs
    unfold oversized
    push_neg
    exact ⟨h2, h1⟩
  have hpieces : piecesOf mc mb (splitIntoSections doc) = splitIntoSections doc := by
    unfold piecesOf
    rw [List.map_congr_left (fun s hs => if_neg (hnov s hs))]
    exact flatten_map_singleton _
  obtain ⟨gs1, hgs1ne, hgs1eq, hgs1fl⟩ := packAll_partition mc mb (splitIntoSections doc)
  have hcore : createChunksCore mc mb (splitIntoSections doc) = gs1.map List.flatten := by
    rw [createChunksCore_eq_packAll, hpieces]
    exact hgs1eq
  rcases createChunks_cases mc mb (splitIntoSections doc) with h | ⟨h, _⟩
  · refine ⟨gs1, hgs1ne, by rw [hgs1fl, hsecs], ?_⟩
    unfold splitDocument
    rw [h, hcore]
  · obtain ⟨hs, hhsne, hhseq, hhsfl⟩ :=
      packAll_partition mc mb (createChunksCore mc mb (splitIntoSections doc))
    have hfl : hs.flatten = gs1.map List.flatten := by rw [hhsfl, hcore]
    obtain ⟨ks, hks1, hks2⟩ := partition_pullback List.flatten hs gs1 hfl
    refine ⟨ks.map List.flatten, ?_, ?_, ?_⟩
    · intro g hg
      rw [List.mem_map] at hg
      obtain ⟨k, hk, hkg⟩ := hg
      subst hkg
      have hkne : k ≠ [] := by
        intro hknil
        have hmem : (List.map List.flatten k) ∈ hs := by
          rw [hks2]
          exact List.mem_map_of_mem _ hk
        have := hhsne _ hmem
        rw [hknil] at this
        simp at this
      cases k with
      | nil => exact absurd rfl hkne
      | cons g0 kt =>
        have hg0 : g0 ∈ gs1 := by
          rw [← hks1]
          exact List.mem_flatten.2 ⟨g0 :: kt, hk, by simp⟩
        have hg0ne : g0 ≠ [] := hgs1ne g0 hg0
        simp only [List.flatten_cons]
        intro hcon
        rw [List.append_eq_nil] at hcon
        exact hg0ne hcon.1
    · rw [flatten_map_flatten, hks1, hgs1fl, hsecs]
    · unfold splitDocument
      rw [h, optimizePass_eq_packAll, hhseq, hks2]
      rw [List.map_map, List.map_map]
      apply List.map_congr_left
      intro k _
      simp only [Function.comp_apply]
      exact flatten_map_flatten k

/-- C7 witness: the section preservation theorem at a document with two
Markdown headings, all sections small. -/
theorem C7_section_preservation_witness :
    ∃ gs : List (List (List Char)),
      (∀ g ∈ gs, g ≠ []) ∧ gs.flatten = reSplit mdBound ("x\n## a\n## b".toList) ∧
      splitDocument 100 2097152 ("x\n## a\n## b".toList) = gs.map List.flatten :=
  C7_section_preservation 100 2097152 ("x\n## a\n## b".toList) (by decide) (by decide)

/-- C8: the returned chunk list is either the initial greedy packing or
its re-merged version, the latter chosen only when strictly shorter, so
the number of chunks never grows through the re-optimization pass. -/
theorem C8_merge_monotone (mc mb : Int) (doc : List Char) :
    (splitDocument mc mb doc = createChunksCore mc mb (splitIntoSections doc) ∨
      (splitDocument mc mb doc
          = optimizePass mc mb (createChunksCore mc mb (splitIntoSections doc)) ∧
        (optimizePass mc mb (createChunksCore mc mb (splitIntoSections doc))).length
          < (createChunksCore mc mb (splitIntoSections doc)).length)) ∧
    (splitDocument mc mb doc).length
      ≤ (createChunksCore mc mb (splitIntoSections doc)).length := by
  have h := createChunks_cases mc mb (splitIntoSections doc)
  constructor
  · exact h
  · rcases h with h | ⟨h, hlt⟩
    · unfold splitDocument
      rw [h]
    · unfold splitDocument
      rw [h]
      omega

/-- C9 counterexample: the claim exempts only forced-slice chunks from
re-split identity.  The five-character chunk produced from the document
a, full stop, space, bcdef at `max_chars = 3` is a SENTENCE atom (the
decomposition equals the sentence split, not the slice fallback), yet
re-splitting it yields two chunks instead of the chunk itself. -/
theorem C9_counterexample :
    "bcdef".toList ∈ splitDocument 3 2097152 ("a. bcdef".toList) ∧
    splitOversizedSection 3 2097152 ("a. bcdef".toList)
      = sentenceSplit ("a. bcdef".toList) ∧
    splitDocument 3 2097152 ("bcdef".toList) = ["bcd".toList, "ef".toList] ∧
    splitDocument 3 2097152 ("bcdef".toList) ≠ ["bcdef".toList] := by
  decide

/-- C9 (amended): for every output chunk that satisfies both limits,
splitting it again with the same limits returns exactly that chunk as a
single-element list; chunks exceeding a limit (single oversized atoms,
among them the forced slices) may fragment further. -/
theorem C9_resplit_identity (mc mb : Int) (doc C : List Char)
    (_hmem : C ∈ splitDocument mc mb doc)
    (hlen : (C.length : Int) ≤ mc) (hbytes : (byteLen C : Int) ≤ mb) :
    splitDocument mc mb C = [C] :=
  splitDocument_fits mc mb C hlen hbytes

/-- C9 witness: the amended re-split identity at concrete input. -/
theorem C9_resplit_identity_witness :
    splitDocument 3 2097152 ("ab".toList) = ["ab".toList] :=
  C9_resplit_identity 3 2097152 ("ab".toList) ("ab".toList)
    (by decide) (by decide) (by decide)

/-- C10: splitting the empty document with positive limits returns the
single-element list containing the empty chunk (and, being a total
function of its inputs here, raises nothing). -/
theorem C10_empty_document (mc mb : Int) (hmc : 0 < mc) (hmb : 0 < mb) :
    splitDocument mc mb [] = [[]] :=
  splitDocument_fits mc mb []
    (by simp; omega)
    (by simp [byteLen]; omega)

/-- C10 witness: the empty-document theorem at concrete limits. -/
theorem C10_empty_document_witness : splitDocument 3 2097152 [] = [[]] :=
  C10_empty_document 3 2097152 (by norm_num) (by norm_num)

end FileSplitter
